import Mathlib

/-!
Verification of the `nu_plugin_explore` navigation core.

Shallow embedding of the navigation state machine of the
`nu_plugin_explore` repository.

* The navigation operations are embedded from `src/src/lib.rs`
  (`go_up_or_down_in_data`, lines 175-235; `go_deeper_in_data`,
  lines 237-255; `go_back_in_data`, lines 257-262).
* The session loop and its Peeking dispatch are embedded from
  `src/src/app.rs` (`run`, lines 77-152).
* `usize` arithmetic is modelled as `Nat` reduced modulo `2 ^ 64`
  (release-build wrapping semantics: the source adds `usize::MAX`
  to implement the Previous direction, which deliberately wraps).
* A Rust `panic!` aborts the process; it is modelled as the
  `Except.error` channel of type `RustPanic`, one constructor per
  `panic!` / `.unwrap()` site of the source.
-/

set_option autoImplicit false

namespace NuExplore

/-- The value `2 ^ 64`: modulus of Rust `usize` arithmetic on a 64-bit target. -/
def usizeMod : Nat := 18446744073709551616

/-- The value `usize::MAX = 2 ^ 64 - 1`, used by the source for the Up direction. -/
def usizeMax : Nat := 18446744073709551615

/-- The structured data being browsed (`nu_protocol::Value`, restricted to
the constructors this core distinguishes: `List`, `Record`, and the leaf
values the claims exercise — integers, strings and `Nothing`).  Spans are
dropped: the source only ever builds `Span::unknown()`. -/
inductive Value where
  | list (vals : List Value)
  | record (cols : List String) (vals : List Value)
  | int (val : Int)
  | str (val : String)
  | nothing

mutual

/-- Decidable equality of values (written by hand: the nested occurrence
of `List Value` defeats the deriving handler). -/
def decEqValue : (a b : Value) → Decidable (a = b)
  | .list as, .list bs =>
    match decEqValueList as bs with
    | isTrue h => isTrue (by rw [h])
    | isFalse h => isFalse (by intro hh; injection hh; contradiction)
  | .list _, .record _ _ => isFalse (fun h => Value.noConfusion h)
  | .list _, .int _ => isFalse (fun h => Value.noConfusion h)
  | .list _, .str _ => isFalse (fun h => Value.noConfusion h)
  | .list _, .nothing => isFalse (fun h => Value.noConfusion h)
  | .record _ _, .list _ => isFalse (fun h => Value.noConfusion h)
  | .record ca va, .record cb vb =>
    match decEq ca cb, decEqValueList va vb with
    | isTrue h1, isTrue h2 => isTrue (by rw [h1, h2])
    | isFalse h1, _ => isFalse (by intro hh; injection hh; contradiction)
    | _, isFalse h2 => isFalse (by intro hh; injection hh; contradiction)
  | .record _ _, .int _ => isFalse (fun h => Value.noConfusion h)
  | .record _ _, .str _ => isFalse (fun h => Value.noConfusion h)
  | .record _ _, .nothing => isFalse (fun h => Value.noConfusion h)
  | .int _, .list _ => isFalse (fun h => Value.noConfusion h)
  | .int _, .record _ _ => isFalse (fun h => Value.noConfusion h)
  | .int a, .int b =>
    match decEq a b with
    | isTrue h => isTrue (by rw [h])
    | isFalse h => isFalse (by intro hh; injection hh; contradiction)
  | .int _, .str _ => isFalse (fun h => Value.noConfusion h)
  | .int _, .nothing => isFalse (fun h => Value.noConfusion h)
  | .str _, .list _ => isFalse (fun h => Value.noConfusion h)
  | .str _, .record _ _ => isFalse (fun h => Value.noConfusion h)
  | .str _, .int _ => isFalse (fun h => Value.noConfusion h)
  | .str a, .str b =>
    match decEq a b with
    | isTrue h => isTrue (by rw [h])
    | isFalse h => isFalse (by intro hh; injection hh; contradiction)
  | .str _, .nothing => isFalse (fun h => Value.noConfusion h)
  | .nothing, .list _ => isFalse (fun h => Value.noConfusion h)
  | .nothing, .record _ _ => isFalse (fun h => Value.noConfusion h)
  | .nothing, .int _ => isFalse (fun h => Value.noConfusion h)
  | .nothing, .str _ => isFalse (fun h => Value.noConfusion h)
  | .nothing, .nothing => isTrue rfl

/-- Decidable equality of value lists, mutual with `decEqValue`. -/
def decEqValueList : (a b : List Value) → Decidable (a = b)
  | [], [] => isTrue rfl
  | [], _ :: _ => isFalse (fun h => List.noConfusion h)
  | _ :: _, [] => isFalse (fun h => List.noConfusion h)
  | x :: xs, y :: ys =>
    match decEqValue x y, decEqValueList xs ys with
    | isTrue h1, isTrue h2 => isTrue (by rw [h1, h2])
    | isFalse h1, _ => isFalse (by intro hh; injection hh; contradiction)
    | _, isFalse h2 => isFalse (by intro hh; injection hh; contradiction)

end

instance : DecidableEq Value := decEqValue

/-- One step of a cell path (`nu_protocol::ast::PathMember`).  The `optional`
field is the spec's `empty_at_creation` flag; the span field is dropped
(always `Span::unknown()` in the source). -/
inductive PathMember where
  | int (val : Nat) (optional : Bool)
  | string (val : String) (optional : Bool)
deriving DecidableEq, Repr

/-- Error channel of `follow_cell_path` (`nu_protocol::ShellError`,
collapsed to a single constructor: the source only ever matches `Err(_)`
or propagates the error with `?`). -/
inductive ShellError where
  | accessError
deriving DecidableEq, Repr

/-- A Rust `panic!` or failed `.unwrap()`: aborts the whole process.
One constructor per panic site of `src/src/lib.rs`. -/
inductive RustPanic where
  /-- Site `panic!("unexpected error when unpacking current cell path")` -/
  | unexpectedUnpack
  /-- Site `panic!("current should be an integer path member")` -/
  | notIntMember
  /-- Site `panic!("current should be an string path member")` -/
  | notStringMember
  /-- Site `panic!("unexpected error when following cell path")` -/
  | followError
  /-- Site `cols.iter().position(..).unwrap()` on `None` -/
  | positionUnwrap
deriving DecidableEq, Repr

/-- The sibling-move direction (`Direction` in `src/src/lib.rs`). -/
inductive Direction where
  | down
  | up
deriving DecidableEq, Repr

/-- The interaction mode (`Mode` in `src/src/app.rs`; the legacy copy in
`src/src/lib.rs` lacks `Peeking` but is otherwise identical). -/
inductive Mode where
  | normal
  | insert
  | peeking
deriving DecidableEq, Repr

/-- The application state (`State` in `src/src/app.rs`): the cell path
members, the `bottom` flag (the spec's `at_leaf`), and the mode. -/
structure State where
  cell_path : List PathMember
  bottom : Bool
  mode : Mode
deriving DecidableEq, Repr

/-- First value of a record column, scanning `cols` and `vals` in step
(the record lookup inside `follow_cell_path`; record keys are unique per
the data model, so first match and last match agree). -/
def recordGet (key : String) : List String → List Value → Option Value
  | c :: cs, v :: vs => if c == key then some v else recordGet key cs vs
  | _, _ => none

/-- Models the dependency function `nu_protocol::Value::follow_cell_path`
(called with `insensitive = false` at `src/src/lib.rs:189,240` and
`src/src/app.rs:143,147`; the function itself lives in the `nu_protocol`
crate, not in this repository).  For each member in turn: an `Int` member
indexes a `List`, a `String` member keys a `Record`; a failed lookup on a
member with `optional = true` (and any member applied to `Nothing` with
`optional = true`) yields `Ok(Nothing)` — nushell's `?` semantics, which
is what makes the placeholder members this plugin pushes into empty
containers resolve without error; a failed lookup otherwise is a
`ShellError`.  A `String` member applied to a `List` performs table-column
extraction in the real library; no state this plugin builds and no claim
reaches that case, and it is collapsed to the error branch here. -/
def followCellPath : Value → List PathMember → Except ShellError Value
  | v, [] => .ok v
  | v, .int i opt :: rest =>
    match v with
    | .list vals =>
      match vals.get? i with
      | some item => followCellPath item rest
      | none => if opt then .ok .nothing else .error .accessError
    | .nothing => if opt then .ok .nothing else .error .accessError
    | _ => .error .accessError
  | v, .string s opt :: rest =>
    match v with
    | .record cols vals =>
      match recordGet s cols vals with
      | some item => followCellPath item rest
      | none => if opt then .ok .nothing else .error .accessError
    | .nothing => if opt then .ok .nothing else .error .accessError
    | _ => .error .accessError

/-- Models `Iterator::position(|x| x == &val)` over a list of column names
(`cols.iter().position(..)` at `src/src/lib.rs:221`). -/
def position (val : String) : List String → Option Nat
  | [] => none
  | c :: rest => if c == val then some 0 else (position val rest).map (· + 1)

/-- Embeds `go_up_or_down_in_data` (`src/src/lib.rs:175-235`): the sibling move.
No-op when `bottom` is set; otherwise pops the last member, resolves the
remaining path, and pushes the member rewritten by wraparound arithmetic
(`usize` wrapping, see the module header).  The catch-all `_ => {}` arm of
the source leaves the member popped. -/
def go_up_or_down_in_data (st : State) (input : Value) (dir : Direction) :
    Except RustPanic State :=
  if st.bottom then .ok st
  else
    let d : Nat :=
      match dir with
      | .up => usizeMax
      | .down => 1
    let current := st.cell_path.getLast?
    let members := st.cell_path.dropLast
    match followCellPath input members with
    | .ok (.list vals) =>
      match current with
      | some (.int val opt) =>
        let newVal : Nat :=
          if vals.isEmpty then val
          else ((val + d) % usizeMod + vals.length) % usizeMod % vals.length
        .ok { st with cell_path := members ++ [.int newVal opt] }
      | none => .error .unexpectedUnpack
      | some _ => .error .notIntMember
    | .ok (.record cols _) =>
      match current with
      | some (.string val opt) =>
        if cols.isEmpty then
          .ok { st with cell_path := members ++ [.string "" opt] }
        else
          match position val cols with
          | some index =>
            .ok { st with cell_path :=
              members ++
                [.string
                  (cols.getD
                    (((index + d) % usizeMod + cols.length) % usizeMod
                      % cols.length) "") opt] }
          | none => .error .positionUnwrap
      | none => .error .unexpectedUnpack
      | some _ => .error .notStringMember
    | .error _ => .error .followError
    | .ok _ => .ok { st with cell_path := members }

/-- Embeds `go_deeper_in_data` (`src/src/lib.rs:237-255`): descend.  Resolves the
current path; on a `List` or `Record` pushes a member selecting the first
child (`Index 0` / first key, `optional` recording emptiness); on any
other resolved value sets `bottom`; a resolution error panics. -/
def go_deeper_in_data (st : State) (input : Value) : Except RustPanic State :=
  match followCellPath input st.cell_path with
  | .ok (.list vals) =>
    .ok { st with cell_path := st.cell_path ++ [.int 0 vals.isEmpty] }
  | .ok (.record cols _) =>
    .ok { st with cell_path := st.cell_path ++ [.string (cols.headD "") cols.isEmpty] }
  | .error _ => .error .followError
  | .ok _ => .ok { st with bottom := true }

/-- Embeds `go_back_in_data` (`src/src/lib.rs:257-262`): ascend.  Pops the last
member only when `bottom` is clear and more than one member remains, then
clears `bottom`. -/
def go_back_in_data (st : State) : State :=
  let members :=
    if !st.bottom && decide (1 < st.cell_path.length) then st.cell_path.dropLast
    else st.cell_path
  { st with cell_path := members, bottom := false }

/-- The initial cell path pushed by `run` (`src/src/app.rs:82-95`): one
member selecting the root's first child when the root is a `List` or a
`Record` (`optional` recording the root's emptiness), nothing otherwise. -/
def initMembers : Value → List PathMember
  | .list vals => [.int 0 vals.isEmpty]
  | .record cols _ => [.string (cols.headD "") cols.isEmpty]
  | _ => []

/-- A key event (`console::Key`): only compared for equality by the
source, so modelled as a bare `Nat`. -/
abbrev Key : Type := Nat

/-- Modelled from the spec: the `navigation` field of the key bindings;
the `config` module is declared at `src/src/lib.rs:1` but its file is not
under `src/`, so the shape is taken from the spec's action list (§6) and
the field accesses in `src/src/app.rs`. -/
structure NavigationBindingsMap where
  left : Key
  down : Key
  up : Key
  right : Key

/-- Modelled from the spec: the Peeking sub-action bindings (spec §6;
field accesses at `src/src/app.rs:135-144`). -/
structure PeekingBindingsMap where
  quit : Key
  all : Key
  current : Key
  under : Key

/-- Modelled from the spec: the full key-bindings map (spec §6; field
accesses in `src/src/app.rs`). -/
structure KeyBindingsMap where
  quit : Key
  insert : Key
  normal : Key
  navigation : NavigationBindingsMap
  peek : Key
  peeking : PeekingBindingsMap

/-- Modelled from the spec: the configuration record (only the key
bindings are consulted by the embedded loop body). -/
structure Config where
  keybindings : KeyBindingsMap

/-- Outcome of one iteration of the session loop body. -/
inductive StepResult where
  /-- The loop `break`: the session ends and `run` returns the `Nothing` sentinel. -/
  | quit
  /-- The loop continues with this state. -/
  | continue_ (st : State)
  /-- An early `return Ok(v)` from a Peeking sub-action. -/
  | ret (v : Value)
  /-- A navigation `panic!` aborted the process. -/
  | panicked (e : RustPanic)
  /-- A `ShellError` propagated by `?` from `follow_cell_path`. -/
  | shellErr (e : ShellError)
deriving DecidableEq

/-- The `else if` chain of the session loop body
(`src/src/app.rs:104-132`): insert, normal, the four navigation keys and
peek, in source order, each guarded by the mode; falls through to the
unchanged state.  (The unconditional quit check that precedes it in the
source is the first test of `step`.) -/
def chainDispatch (cfg : Config) (input : Value) (st : State) (key : Key) :
    Except RustPanic State :=
  if key = cfg.keybindings.insert then
    .ok (if st.mode = .normal then { st with mode := .insert } else st)
  else if key = cfg.keybindings.normal then
    .ok (if st.mode = .insert then { st with mode := .normal } else st)
  else if key = cfg.keybindings.navigation.down then
    (if st.mode = .normal then go_up_or_down_in_data st input .down else .ok st)
  else if key = cfg.keybindings.navigation.up then
    (if st.mode = .normal then go_up_or_down_in_data st input .up else .ok st)
  else if key = cfg.keybindings.navigation.right then
    (if st.mode = .normal then go_deeper_in_data st input else .ok st)
  else if key = cfg.keybindings.navigation.left then
    .ok (if st.mode = .normal then go_back_in_data st else st)
  else if key = cfg.keybindings.peek then
    .ok (if st.mode = .normal then { st with mode := .peeking } else st)
  else .ok st

/-- One iteration of the session loop body of `run`
(`src/src/app.rs:102-149`): the unconditional quit check, then the
`else if` chain (`chainDispatch`), then, in the same iteration and not
chained to it, the Peeking dispatch
(`if state.mode == Mode::Peeking { .. }`) on the state the chain
produced. -/
def step (cfg : Config) (input : Value) (st : State) (key : Key) : StepResult :=
  if key = cfg.keybindings.quit then .quit
  else
    match chainDispatch cfg input st key with
    | .error e => .panicked e
    | .ok st1 =>
      if st1.mode = .peeking then
        if key = cfg.keybindings.peeking.quit then
          .continue_ { st1 with mode := .normal }
        else if key = cfg.keybindings.peeking.all then .ret input
        else if key = cfg.keybindings.peeking.current then
          match followCellPath input st1.cell_path.dropLast with
          | .ok v => .ret v
          | .error e => .shellErr e
        else if key = cfg.keybindings.peeking.under then
          match followCellPath input st1.cell_path with
          | .ok v => .ret v
          | .error e => .shellErr e
        else .continue_ st1
      else .continue_ st1

/-- Iterate a navigation operation through the `Except` panic channel. -/
def iterE (f : State → Except RustPanic State) : Nat → State → Except RustPanic State
  | 0, s => .ok s
  | k + 1, s =>
    match f s with
    | .ok s2 => iterE f k s2
    | .error e => .error e

/-- Returns `true` exactly on the values with no children (neither `List` nor
`Record`): the spec's Leaf class. -/
def isLeaf : Value → Bool
  | .list _ => false
  | .record _ _ => false
  | _ => true

/-- Returns `true` exactly on `List` and `Record` values. -/
def isContainer : Value → Bool
  | .list _ => true
  | .record _ _ => true
  | _ => false

/-- The sibling-move offset of the spec's arithmetic (§4.1): `1` for Next
(`Down`), `n - 1` for Previous (`Up`) over a container of size `n`.  Used
only in theorem statements, as the spec-side formula to compare the code
against. -/
def delta (dir : Direction) (n : Nat) : Nat :=
  match dir with
  | .down => 1
  | .up => n - 1

/-- A well-formed demonstration configuration: all twelve actions bound
to pairwise distinct keys. -/
def demoCfg : Config := ⟨⟨0, 1, 2, ⟨3, 4, 5, 6⟩, 7, ⟨8, 9, 10, 11⟩⟩⟩

/-- A misconfigured key map binding one key (7) to both `peek`
(mode-entry) and `peeking.all` (Peeking sub-action); all other bindings
distinct. -/
def clashCfg : Config := ⟨⟨0, 1, 2, ⟨3, 4, 5, 6⟩, 7, ⟨8, 7, 9, 10⟩⟩⟩

/-- The root value of the spec's peek-exactness example:
`{a: [1, 2, 3], b: "x"}`. -/
def demoRoot : Value :=
  .record ["a", "b"] [.list [.int 1, .int 2, .int 3], .str "x"]

/-- The state of the peek-exactness example: focused at `a[1]` (value
`2`), in Peeking mode. -/
def demoSt : State := ⟨[.string "a" false, .int 1 false], false, .peeking⟩

/-! ## Helper lemmas -/

lemma usize_wrap_down (val n : Nat) (h2 : val < n) (h3 : n < 2 ^ 63) :
    ((val + 1) % usizeMod + n) % usizeMod = val + 1 + n := by
  simp only [usizeMod]
  omega

lemma usize_wrap_up (val n : Nat) (h2 : val < n) (h3 : n < 2 ^ 63) :
    ((val + usizeMax) % usizeMod + n) % usizeMod = val + n - 1 := by
  simp only [usizeMax, usizeMod]
  omega

lemma position_lt {key : String} : ∀ {cols : List String} {i : Nat},
    position key cols = some i → i < cols.length := by
  intro cols
  induction cols with
  | nil => intro i h; simp [position] at h
  | cons c rest ih =>
    intro i h
    simp only [position] at h
    by_cases hc : (c == key) = true
    · simp [hc] at h
      simp only [List.length_cons]
      omega
    · simp [hc] at h
      obtain ⟨j, hj, rfl⟩ := h
      have := ih hj
      simp only [List.length_cons]
      omega

lemma position_getD {cols : List String} (hnd : cols.Nodup) :
    ∀ {i : Nat}, i < cols.length → position (cols.getD i "") cols = some i := by
  induction cols with
  | nil => intro i hi; simp at hi
  | cons c rest ih =>
    intro i hi
    match i with
    | 0 => simp [position]
    | j + 1 =>
      have hj : j < rest.length := by
        simp only [List.length_cons] at hi
        omega
      have hmem : rest.getD j "" ∈ rest := by
        rw [List.getD_eq_getElem?_getD, List.getElem?_eq_getElem hj]
        simp only [Option.getD_some]
        exact List.getElem_mem hj
      have hcnot : c ∉ rest := (List.nodup_cons.mp hnd).1
      have hne : (c == rest.getD j "") = false := by
        simp only [beq_eq_false_iff_ne, ne_eq]
        intro hEq
        exact hcnot (hEq ▸ hmem)
      simp only [List.getD_cons_succ, position, hne, if_neg]
      rw [ih (List.nodup_cons.mp hnd).2 hj]
      simp

/-- One sibling move when the parent is a non-empty list: the position
moves to `(val + delta) % n` (normal form of the source's wrapping
arithmetic). -/
lemma go_list_step (input : Value) (pfx : List PathMember) (vals : List Value)
    (val : Nat) (opt : Bool) (m : Mode) (dir : Direction)
    (hf : followCellPath input pfx = .ok (.list vals))
    (hn : 0 < vals.length) (hW : vals.length < 2 ^ 63) (hval : val < vals.length) :
    go_up_or_down_in_data ⟨pfx ++ [.int val opt], false, m⟩ input dir
      = .ok ⟨pfx ++ [.int ((val + delta dir vals.length) % vals.length) opt], false, m⟩ := by
  have hne : vals.isEmpty = false := by
    cases vals with
    | nil => simp at hn
    | cons a l => rfl
  unfold go_up_or_down_in_data
  simp only [List.getLast?_concat, List.dropLast_concat, hf, hne, Bool.false_eq_true,
    if_false, Except.ok.injEq]
  cases dir with
  | down =>
    simp only [delta]
    rw [usize_wrap_down val vals.length hval hW, Nat.add_mod_right]
  | up =>
    simp only [delta]
    rw [usize_wrap_up val vals.length hval hW]
    have : val + vals.length - 1 = val + (vals.length - 1) := by omega
    rw [this]

/-- One sibling move when the parent is a record whose key list locates
the current key at `index`: the key moves to the one at
`(index + delta) % n`. -/
lemma go_record_step (input : Value) (pfx : List PathMember) (cols : List String)
    (rvals : List Value) (key : String) (index : Nat) (opt : Bool) (m : Mode)
    (dir : Direction)
    (hf : followCellPath input pfx = .ok (.record cols rvals))
    (hpos : position key cols = some index) (hW : cols.length < 2 ^ 63) :
    go_up_or_down_in_data ⟨pfx ++ [.string key opt], false, m⟩ input dir
      = .ok ⟨pfx ++
          [.string (cols.getD ((index + delta dir cols.length) % cols.length) "") opt],
          false, m⟩ := by
  have hlt : index < cols.length := position_lt hpos
  have hne : cols.isEmpty = false := by
    cases cols with
    | nil => simp [position] at hpos
    | cons a l => rfl
  unfold go_up_or_down_in_data
  simp only [List.getLast?_concat, List.dropLast_concat, hf, hne, Bool.false_eq_true,
    if_false, hpos, Except.ok.injEq]
  cases dir with
  | down =>
    simp only [delta]
    rw [usize_wrap_down index cols.length hlt hW, Nat.add_mod_right]
  | up =>
    simp only [delta]
    rw [usize_wrap_up index cols.length hlt hW]
    have : index + cols.length - 1 = index + (cols.length - 1) := by omega
    rw [this]

/-- Sibling move over an empty list parent: the member is pushed back
with its position unchanged. -/
lemma go_list_empty (input : Value) (pfx : List PathMember) (val : Nat)
    (opt : Bool) (m : Mode) (dir : Direction)
    (hf : followCellPath input pfx = .ok (.list [])) :
    go_up_or_down_in_data ⟨pfx ++ [.int val opt], false, m⟩ input dir
      = .ok ⟨pfx ++ [.int val opt], false, m⟩ := by
  unfold go_up_or_down_in_data
  simp [List.getLast?_concat, List.dropLast_concat, hf]

/-- Sibling move over an empty record parent: the key becomes the empty
string. -/
lemma go_record_empty (input : Value) (pfx : List PathMember)
    (rvals : List Value) (key : String) (opt : Bool) (m : Mode) (dir : Direction)
    (hf : followCellPath input pfx = .ok (.record [] rvals)) :
    go_up_or_down_in_data ⟨pfx ++ [.string key opt], false, m⟩ input dir
      = .ok ⟨pfx ++ [.string "" opt], false, m⟩ := by
  unfold go_up_or_down_in_data
  simp [List.getLast?_concat, List.dropLast_concat, hf]

/-- Iterating the sibling move over a non-empty list parent: after `k`
steps the position is `(val + k * delta) % n`. -/
lemma iterE_list (input : Value) (pfx : List PathMember) (vals : List Value)
    (opt : Bool) (m : Mode) (dir : Direction)
    (hf : followCellPath input pfx = .ok (.list vals))
    (hn : 0 < vals.length) (hW : vals.length < 2 ^ 63) :
    ∀ (k val : Nat), val < vals.length →
      iterE (fun s => go_up_or_down_in_data s input dir) k
          ⟨pfx ++ [.int val opt], false, m⟩
        = .ok ⟨pfx ++ [.int ((val + k * delta dir vals.length) % vals.length) opt],
            false, m⟩ := by
  intro k
  induction k with
  | zero =>
    intro val hval
    simp [iterE, Nat.mod_eq_of_lt hval]
  | succ j ih =>
    intro val hval
    have hstep := go_list_step input pfx vals val opt m dir hf hn hW hval
    simp only [iterE, hstep]
    rw [ih ((val + delta dir vals.length) % vals.length) (Nat.mod_lt _ hn)]
    have harith : ((val + delta dir vals.length) % vals.length
          + j * delta dir vals.length) % vals.length
        = (val + (j + 1) * delta dir vals.length) % vals.length := by
      rw [Nat.mod_add_mod]
      congr 1
      ring
    rw [harith]

/-- Iterating the sibling move over a record parent with distinct keys:
after `k` steps the key is the one at index `(i + k * delta) % n`. -/
lemma iterE_record (input : Value) (pfx : List PathMember) (cols : List String)
    (rvals : List Value) (opt : Bool) (m : Mode) (dir : Direction)
    (hf : followCellPath input pfx = .ok (.record cols rvals))
    (hnd : cols.Nodup) (hn : 0 < cols.length) (hW : cols.length < 2 ^ 63) :
    ∀ (k i : Nat), i < cols.length →
      iterE (fun s => go_up_or_down_in_data s input dir) k
          ⟨pfx ++ [.string (cols.getD i "") opt], false, m⟩
        = .ok ⟨pfx ++
            [.string (cols.getD ((i + k * delta dir cols.length) % cols.length) "") opt],
            false, m⟩ := by
  intro k
  induction k with
  | zero =>
    intro i hi
    simp [iterE, Nat.mod_eq_of_lt hi]
  | succ j ih =>
    intro i hi
    have hpos := position_getD hnd hi
    have hstep := go_record_step input pfx cols rvals (cols.getD i "") i opt m dir
      hf hpos hW
    simp only [iterE, hstep]
    rw [ih ((i + delta dir cols.length) % cols.length) (Nat.mod_lt _ hn)]
    have harith : ((i + delta dir cols.length) % cols.length
          + j * delta dir cols.length) % cols.length
        = (i + (j + 1) * delta dir cols.length) % cols.length := by
      rw [Nat.mod_add_mod]
      congr 1
      ring
    rw [harith]

/-! ## Claim theorems -/

/-- C2: wraparound closure.  For every List or Record parent of size
`n ≥ 1` and every valid starting position, applying the sibling move
(`go_up_or_down_in_data`) `n` times — in either direction — returns the
state, and in particular the FocusPath, to exactly its original value.
(`n < 2 ^ 63` is the realizable-size bound under which the source's
wrapping `usize` arithmetic cannot overflow a second time; record keys
are distinct per the data model.) -/
theorem wraparound_closure (input : Value) (pfx : List PathMember) (opt : Bool)
    (m : Mode) (dir : Direction) :
    (∀ (vals : List Value) (val : Nat),
       followCellPath input pfx = .ok (.list vals) →
       0 < vals.length → vals.length < 2 ^ 63 → val < vals.length →
       iterE (fun s => go_up_or_down_in_data s input dir) vals.length
           ⟨pfx ++ [.int val opt], false, m⟩
         = .ok ⟨pfx ++ [.int val opt], false, m⟩)
  ∧ (∀ (cols : List String) (rvals : List Value) (i : Nat),
       followCellPath input pfx = .ok (.record cols rvals) →
       cols.Nodup → 0 < cols.length → cols.length < 2 ^ 63 → i < cols.length →
       iterE (fun s => go_up_or_down_in_data s input dir) cols.length
           ⟨pfx ++ [.string (cols.getD i "") opt], false, m⟩
         = .ok ⟨pfx ++ [.string (cols.getD i "") opt], false, m⟩) := by
  constructor
  · intro vals val hf hn hW hval
    rw [iterE_list input pfx vals opt m dir hf hn hW vals.length val hval]
    rw [Nat.add_mul_mod_self_left, Nat.mod_eq_of_lt hval]
  · intro cols rvals i hf hnd hn hW hi
    rw [iterE_record input pfx cols rvals opt m dir hf hnd hn hW cols.length i hi]
    rw [Nat.add_mul_mod_self_left, Nat.mod_eq_of_lt hi]

/-- Witness for C2: over root `[10, 20, 30]` starting at position 1,
three Next moves return to position 1; over root `{a: 1, b: 2}` starting
at key `b`, two Previous moves return to key `b`. -/
theorem wraparound_closure_witness :
    iterE (fun s => go_up_or_down_in_data s (.list [.int 10, .int 20, .int 30]) .down) 3
        ⟨[.int 1 false], false, .normal⟩
      = .ok ⟨[.int 1 false], false, .normal⟩
  ∧ iterE (fun s => go_up_or_down_in_data s (.record ["a", "b"] [.int 1, .int 2]) .up) 2
        ⟨[.string "b" false], false, .normal⟩
      = .ok ⟨[.string "b" false], false, .normal⟩ := by
  constructor
  · exact (wraparound_closure (.list [.int 10, .int 20, .int 30]) [] false .normal
      .down).1 [.int 10, .int 20, .int 30] 1 rfl (by decide) (by decide) (by decide)
  · have h := (wraparound_closure (.record ["a", "b"] [.int 1, .int 2]) [] false .normal
      .up).2 ["a", "b"] [.int 1, .int 2] 1 rfl (by decide) (by decide) (by decide)
      (by decide)
    simpa using h

/-- C3: one-step sibling-move arithmetic.  With a List parent of length
`n`, the move rewrites the last member's position to
`(position + delta + n) % n` with `delta = 1` for Next (`Down`) and
`delta = n - 1` for Previous (`Up`), and keeps it untouched (at its
placeholder value 0) when `n = 0`; with a Record parent the key moves to
`cols[(index + delta + n) % n]` over the ordered key list, and becomes
the empty string when `n = 0`.  The rewritten member keeps
`empty_at_creation` (`optional`) unchanged in every case. -/
theorem move_sibling_one_step_arith (input : Value) (pfx : List PathMember)
    (opt : Bool) (m : Mode) (dir : Direction) :
    (∀ (vals : List Value) (val : Nat),
       followCellPath input pfx = .ok (.list vals) → vals.length < 2 ^ 63 →
       (val < vals.length ∨ (vals.length = 0 ∧ val = 0)) →
       go_up_or_down_in_data ⟨pfx ++ [.int val opt], false, m⟩ input dir
         = .ok ⟨pfx ++ [.int (if vals.length = 0 then 0
             else (val + delta dir vals.length + vals.length) % vals.length) opt],
             false, m⟩)
  ∧ (∀ (cols : List String) (rvals : List Value) (key : String),
       followCellPath input pfx = .ok (.record cols rvals) → cols.length < 2 ^ 63 →
       ((cols.length = 0 →
           go_up_or_down_in_data ⟨pfx ++ [.string key opt], false, m⟩ input dir
             = .ok ⟨pfx ++ [.string "" opt], false, m⟩)
       ∧ ∀ index, position key cols = some index →
           go_up_or_down_in_data ⟨pfx ++ [.string key opt], false, m⟩ input dir
             = .ok ⟨pfx ++ [.string (cols.getD
                 ((index + delta dir cols.length + cols.length) % cols.length) "") opt],
                 false, m⟩)) := by
  constructor
  · intro vals val hf hW hcase
    rcases hcase with hval | ⟨hzero, hv0⟩
    · have hn : 0 < vals.length := Nat.lt_of_le_of_lt (Nat.zero_le val) hval
      rw [go_list_step input pfx vals val opt m dir hf hn hW hval]
      rw [if_neg (by omega), Nat.add_mod_right]
    · have : vals = [] := List.length_eq_zero.mp hzero
      subst this
      subst hv0
      rw [go_list_empty input pfx 0 opt m dir hf]
      simp
  · intro cols rvals key hf hW
    constructor
    · intro hzero
      have : cols = [] := List.length_eq_zero.mp hzero
      subst this
      exact go_record_empty input pfx rvals key opt m dir hf
    · intro index hpos
      rw [go_record_step input pfx cols rvals key index opt m dir hf hpos hW]
      rw [Nat.add_mod_right]

/-- Witness for C3: over root `[10, 20, 30]` a Previous move from
position 0 wraps to position `(0 + 2 + 3) % 3 = 2`; over root
`{a: 1, b: 2}` a Next move from key `a` reaches key `b`. -/
theorem move_sibling_one_step_arith_witness :
    go_up_or_down_in_data ⟨[.int 0 false], false, .normal⟩
        (.list [.int 10, .int 20, .int 30]) .up
      = .ok ⟨[.int 2 false], false, .normal⟩
  ∧ go_up_or_down_in_data ⟨[.string "a" false], false, .normal⟩
        (.record ["a", "b"] [.int 1, .int 2]) .down
      = .ok ⟨[.string "b" false], false, .normal⟩ := by
  constructor
  · have h := (move_sibling_one_step_arith (.list [.int 10, .int 20, .int 30]) []
      false .normal .up).1 [.int 10, .int 20, .int 30] 0 rfl (by decide)
      (Or.inl (by decide))
    simpa using h
  · have h := ((move_sibling_one_step_arith (.record ["a", "b"] [.int 1, .int 2]) []
      false .normal .down).2 ["a", "b"] [.int 1, .int 2] "a" rfl (by decide)).2 0
      (by decide)
    simpa using h

/-- Descending on a focus that resolves to a Leaf (neither List nor
Record) only sets `bottom`; the path is untouched. -/
lemma go_deeper_leaf (input : Value) (st : State) (v : Value)
    (hf : followCellPath input st.cell_path = .ok v) (hleaf : isLeaf v = true) :
    go_deeper_in_data st input = .ok { st with bottom := true } := by
  unfold go_deeper_in_data
  rw [hf]
  cases v <;> simp [isLeaf] at hleaf ⊢

/-- C4: descend/ascend inverse.  For every session state (non-empty
FocusPath, `at_leaf` clear — the §3 invariants) whose path resolves,
`go_back_in_data` after `go_deeper_in_data` restores the whole state, and
in particular the FocusPath member-for-member: both when the descend
pushed into a child container and when it hit a Leaf and only set
`at_leaf` (the cancel path). -/
theorem descend_ascend_inverse (input : Value) (st : State) (v : Value)
    (h1 : st.bottom = false) (h2 : st.cell_path ≠ [])
    (hf : followCellPath input st.cell_path = .ok v) :
    (go_deeper_in_data st input).map go_back_in_data = .ok st := by
  obtain ⟨p, b, m⟩ := st
  simp only at h1 hf h2
  subst h1
  have hlen : 0 < p.length := List.length_pos.mpr h2
  unfold go_deeper_in_data
  rw [hf]
  cases v with
  | list vals =>
    simp only [Except.map]
    unfold go_back_in_data
    have h3 : 1 < (p ++ [PathMember.int 0 vals.isEmpty]).length := by
      simp only [List.length_append, List.length_cons, List.length_nil]
      omega
    simp [h3, List.dropLast_concat, h2]
  | record cols rvals =>
    simp only [Except.map]
    unfold go_back_in_data
    have h3 : 1 < (p ++ [PathMember.string (cols.headD "") cols.isEmpty]).length := by
      simp only [List.length_append, List.length_cons, List.length_nil]
      omega
    simp [h3, List.dropLast_concat, h2]
  | int a =>
    simp [Except.map, go_back_in_data]
  | str a =>
    simp [Except.map, go_back_in_data]
  | nothing =>
    simp [Except.map, go_back_in_data]

/-- Witness for C4: focused at key `a` of `{a: [1,2,3], b: "x"}` (a
container child) and at position 1 of `[1, 2, 3]` via `a` (a leaf child),
descend-then-ascend restores the state. -/
theorem descend_ascend_inverse_witness :
    (go_deeper_in_data ⟨[.string "a" false], false, .normal⟩
        (.record ["a", "b"] [.list [.int 1, .int 2, .int 3], .str "x"])).map
        go_back_in_data
      = .ok ⟨[.string "a" false], false, .normal⟩
  ∧ (go_deeper_in_data ⟨[.string "a" false, .int 1 false], false, .normal⟩
        (.record ["a", "b"] [.list [.int 1, .int 2, .int 3], .str "x"])).map
        go_back_in_data
      = .ok ⟨[.string "a" false, .int 1 false], false, .normal⟩ := by
  constructor
  · exact descend_ascend_inverse
      (.record ["a", "b"] [.list [.int 1, .int 2, .int 3], .str "x"])
      ⟨[.string "a" false], false, .normal⟩ (.list [.int 1, .int 2, .int 3])
      rfl (by simp) rfl
  · exact descend_ascend_inverse
      (.record ["a", "b"] [.list [.int 1, .int 2, .int 3], .str "x"])
      ⟨[.string "a" false, .int 1 false], false, .normal⟩ (.int 2)
      rfl (by simp) rfl

/-- C8: leaf idempotence.  For every state whose focus resolves to a
Leaf, any positive number of descends yields the same state with
`at_leaf` (`bottom`) set and the FocusPath untouched; when `at_leaf` is
already set, a descend leaves the whole state unchanged. -/
theorem leaf_descend_idempotent (input : Value) (st : State) (v : Value)
    (hf : followCellPath input st.cell_path = .ok v) (hleaf : isLeaf v = true) :
    (∀ k, 0 < k →
       iterE (fun s => go_deeper_in_data s input) k st = .ok { st with bottom := true })
  ∧ (st.bottom = true → go_deeper_in_data st input = .ok st) := by
  have hstep : go_deeper_in_data st input = .ok { st with bottom := true } :=
    go_deeper_leaf input st v hf hleaf
  have hstep2 : go_deeper_in_data { st with bottom := true } input
      = .ok { st with bottom := true } :=
    go_deeper_leaf input { st with bottom := true } v hf hleaf
  have hfix : ∀ k, iterE (fun s => go_deeper_in_data s input) k { st with bottom := true }
      = .ok { st with bottom := true } := by
    intro k
    induction k with
    | zero => rfl
    | succ j ih => simp only [iterE, hstep2, ih]
  constructor
  · intro k hk
    obtain ⟨j, rfl⟩ : ∃ j, k = j + 1 := ⟨k - 1, by omega⟩
    simp only [iterE, hstep, hfix j]
  · intro hb
    rw [hstep]
    obtain ⟨p, b, m⟩ := st
    simp only at hb
    subst hb
    rfl

/-- Witness for C8: with the root (and focus) the leaf `42`, descending
three times yields `bottom = true` with the path untouched, and a descend
from `bottom = true` is the identity. -/
theorem leaf_descend_idempotent_witness :
    iterE (fun s => go_deeper_in_data s (.int 42)) 3 ⟨[], false, .normal⟩
      = .ok ⟨[], true, .normal⟩
  ∧ go_deeper_in_data ⟨[], true, .normal⟩ (.int 42) = .ok ⟨[], true, .normal⟩ := by
  constructor
  · exact (leaf_descend_idempotent (.int 42) ⟨[], false, .normal⟩ (.int 42) rfl rfl).1
      3 (by decide)
  · exact (leaf_descend_idempotent (.int 42) ⟨[], true, .normal⟩ (.int 42) rfl rfl).2 rfl

/-- Appending more members to a path that resolves to a non-`Nothing`
value continues the walk from that value (the early `Ok(Nothing)` stop of
an optional member yields `Nothing`, so it cannot have produced `w`). -/
lemma followCellPath_append (p q : List PathMember) :
    ∀ (v w : Value), followCellPath v p = .ok w → w ≠ .nothing →
      followCellPath v (p ++ q) = followCellPath w q := by
  induction p with
  | nil =>
    intro v w h hw
    simp only [followCellPath] at h
    cases h
    rfl
  | cons mhd rest ih =>
    intro v w h hw
    cases mhd with
    | int i opt =>
      cases v with
      | list vals =>
        simp only [List.cons_append, followCellPath] at h ⊢
        cases hv : vals.get? i with
        | some item =>
          rw [hv] at h
          simp only [hv]
          exact ih item w h hw
        | none =>
          rw [hv] at h
          by_cases hopt : opt = true <;> simp [hopt] at h
          exact absurd h.symm hw
      | record cols rvals => simp [followCellPath] at h
      | int a => simp [followCellPath] at h
      | str a => simp [followCellPath] at h
      | nothing =>
        simp only [followCellPath] at h
        by_cases hopt : opt = true <;> simp [hopt] at h
        exact absurd h.symm hw
    | string s opt =>
      cases v with
      | record cols rvals =>
        simp only [List.cons_append, followCellPath] at h ⊢
        cases hv : recordGet s cols rvals with
        | some item =>
          rw [hv] at h
          simp only [hv]
          exact ih item w h hw
        | none =>
          rw [hv] at h
          by_cases hopt : opt = true <;> simp [hopt] at h
          exact absurd h.symm hw
      | list vals => simp [followCellPath] at h
      | int a => simp [followCellPath] at h
      | str a => simp [followCellPath] at h
      | nothing =>
        simp only [followCellPath] at h
        by_cases hopt : opt = true <;> simp [hopt] at h
        exact absurd h.symm hw

/-- C10: a placeholder selection into an empty container behaves like a
Leaf under descend.  When the last member has `empty_at_creation = true`
and its parent is an empty List (resp. empty Record), descend leaves the
FocusPath unchanged and only sets `at_leaf` (`bottom`). -/
theorem placeholder_descend_is_leaf (input : Value) (st : State)
    (pfx : List PathMember) :
    (∀ i, st.cell_path = pfx ++ [.int i true] →
       followCellPath input pfx = .ok (.list []) →
       go_deeper_in_data st input = .ok { st with bottom := true })
  ∧ (∀ key rvals, st.cell_path = pfx ++ [.string key true] →
       followCellPath input pfx = .ok (.record [] rvals) →
       go_deeper_in_data st input = .ok { st with bottom := true }) := by
  constructor
  · intro i hpath hf
    have hfull : followCellPath input st.cell_path = .ok .nothing := by
      rw [hpath,
        followCellPath_append pfx [.int i true] input (.list []) hf (by simp)]
      simp [followCellPath]
    exact go_deeper_leaf input st .nothing hfull rfl
  · intro key rvals hpath hf
    have hfull : followCellPath input st.cell_path = .ok .nothing := by
      rw [hpath,
        followCellPath_append pfx [.string key true] input (.record [] rvals) hf
          (by simp)]
      simp [followCellPath, recordGet]
    exact go_deeper_leaf input st .nothing hfull rfl

/-- Witness for C10: focused at the placeholder `Index{0, true}` of the
empty list stored under key `a`, descend only sets `bottom`. -/
theorem placeholder_descend_is_leaf_witness :
    go_deeper_in_data ⟨[.string "a" false, .int 0 true], false, .normal⟩
        (.record ["a"] [.list []])
      = .ok ⟨[.string "a" false, .int 0 true], true, .normal⟩ := by
  exact (placeholder_descend_is_leaf (.record ["a"] [.list []])
      ⟨[.string "a" false, .int 0 true], false, .normal⟩ [.string "a" false]).1
    0 rfl rfl

/-- A successful sibling move never empties the path when the root is a
container: either the last member is rewritten in place (same length) or
— only possible above the first level — the catch-all arm of the source
silently drops it. -/
lemma go_up_or_down_length (st : State) (input : Value) (dir : Direction)
    (s' : State) (hc : isContainer input = true) (hlen : 1 ≤ st.cell_path.length)
    (h : go_up_or_down_in_data st input dir = .ok s') :
    1 ≤ s'.cell_path.length := by
  by_cases hb : st.bottom
  · unfold go_up_or_down_in_data at h
    rw [if_pos hb] at h
    cases h
    exact hlen
  · unfold go_up_or_down_in_data at h
    rw [if_neg hb] at h
    rcases Nat.lt_or_ge st.cell_path.length 2 with h2 | h2
    · -- exactly one member: the prefix is empty and resolves to the root,
      -- a container, so the member is rewritten, not dropped
      have hone : st.cell_path.length = 1 := by omega
      obtain ⟨a, ha⟩ := List.length_eq_one.mp hone
      rw [ha] at h
      simp only [List.dropLast_single, List.getLast?_singleton] at h
      cases input with
      | list vals =>
        cases a with
        | int i opt =>
          simp only [followCellPath] at h
          cases h
          simp
        | string s opt =>
          simp only [followCellPath] at h
          cases h
      | record cols rvals =>
        cases a with
        | int i opt =>
          simp only [followCellPath] at h
          cases h
        | string s opt =>
          simp only [followCellPath] at h
          by_cases hemp : cols.isEmpty
          · rw [if_pos hemp] at h
            cases h
            simp
          · rw [if_neg hemp] at h
            cases hpos : position s cols with
            | some j => rw [hpos] at h; cases h; simp
            | none => rw [hpos] at h; cases h
      | int a => simp [isContainer] at hc
      | str a => simp [isContainer] at hc
      | nothing => simp [isContainer] at hc
    · -- at least two members: even the dropping arm keeps one
      have hdrop : 1 ≤ st.cell_path.dropLast.length := by
        simp only [List.length_dropLast]
        omega
      cases dir <;>
      · dsimp only at h
        split at h
        · split at h
          · cases h
            simp only [List.length_append, List.length_cons, List.length_nil]
            omega
          · cases h
          · cases h
        · split at h
          · split at h
            · cases h
              simp only [List.length_append, List.length_cons, List.length_nil]
              omega
            · split at h
              · cases h
                simp only [List.length_append, List.length_cons, List.length_nil]
                omega
              · cases h
          · cases h
          · cases h
        · cases h
        · cases h
          simpa using hdrop

/-- A successful descend never shortens the path. -/
lemma go_deeper_length (st : State) (input : Value) (s' : State)
    (h : go_deeper_in_data st input = .ok s') :
    st.cell_path.length ≤ s'.cell_path.length := by
  unfold go_deeper_in_data at h
  split at h
  · cases h; simp
  · cases h; simp
  · cases h
  · cases h; simp

/-- C9: non-empty path invariant.  When the root is a List or a Record,
initialization pushes exactly one member (`Index 0` or the first key,
with `empty_at_creation` set from the root's emptiness), every
navigation operation that returns keeps `cell_path.length ≥ 1`, and
ascend on a length-1 path leaves the path unchanged (the root selection
is never removed). -/
theorem nonempty_path_invariant :
    (∀ vals : List Value, initMembers (.list vals) = [.int 0 vals.isEmpty])
  ∧ (∀ (cols : List String) (rvals : List Value),
       initMembers (.record cols rvals) = [.string (cols.headD "") cols.isEmpty])
  ∧ (∀ (st : State) (input : Value) (dir : Direction) (s' : State),
       isContainer input = true → 1 ≤ st.cell_path.length →
       go_up_or_down_in_data st input dir = .ok s' → 1 ≤ s'.cell_path.length)
  ∧ (∀ (st : State) (input : Value) (s' : State),
       1 ≤ st.cell_path.length →
       go_deeper_in_data st input = .ok s' → 1 ≤ s'.cell_path.length)
  ∧ (∀ st : State, 1 ≤ st.cell_path.length →
       1 ≤ (go_back_in_data st).cell_path.length)
  ∧ (∀ st : State, st.cell_path.length = 1 →
       (go_back_in_data st).cell_path = st.cell_path) := by
  refine ⟨fun _ => rfl, fun _ _ => rfl, go_up_or_down_length, ?_, ?_, ?_⟩
  · intro st input s' hlen h
    exact hlen.trans (go_deeper_length st input s' h)
  · intro st hlen
    unfold go_back_in_data
    by_cases hcond : (!st.bottom && decide (1 < st.cell_path.length)) = true
    · rw [if_pos hcond]
      simp only [Bool.and_eq_true, decide_eq_true_eq] at hcond
      simp only [List.length_dropLast]
      omega
    · rw [if_neg hcond]
      exact hlen
  · intro st hone
    unfold go_back_in_data
    have : decide (1 < st.cell_path.length) = false := by
      simp [hone]
    simp [this]

/-- Witness for C9: a Next move over the root `[10, 20]` from position 0
lands on the length-1 path `[Index 1]`, and ascend from a length-1 path
keeps the path. -/
theorem nonempty_path_invariant_witness :
    (1 ≤ ([PathMember.int 1 false] : List PathMember).length)
  ∧ (go_back_in_data ⟨[.int 0 false], false, .normal⟩).cell_path = [.int 0 false] := by
  constructor
  · exact nonempty_path_invariant.2.2.1 ⟨[.int 0 false], false, .normal⟩
      (.list [.int 10, .int 20]) .down ⟨[.int 1 false], false, .normal⟩
      rfl (by decide) rfl
  · exact nonempty_path_invariant.2.2.2.2.2 ⟨[.int 0 false], false, .normal⟩ rfl

/-- Counterexample to C1 as stated: on a state whose last path member is
an `Int` member while the resolved parent is a Record — the internal
inconsistency the claim is about — the sibling move does not report a
`ContractViolation` error value (no such value exists anywhere in the
code): it reaches `panic!("current should be an string path member")`,
which aborts the whole process (the `RustPanic` channel of the model). -/
theorem navigator_no_abort_counterexample :
    go_up_or_down_in_data ⟨[.int 0 false], false, .normal⟩
        (.record ["a"] [.int 1]) .down
      = .error .notStringMember := rfl

/-- C1 amended: on kind-consistent states the Navigator operations never
produce an error — even at the boundaries: empty container, single-child
container, leaf focus (`at_leaf` set) — but every internal inconsistency
(member kind not matching the resolved parent, a key absent from its
Record, a failed resolve) aborts the process via `panic!`; no
`ContractViolation` error value exists. -/
theorem navigator_boundary_total_and_panics :
    (∀ (input : Value) (pfx : List PathMember) (vals : List Value) (val : Nat)
       (opt : Bool) (m : Mode) (dir : Direction),
       followCellPath input pfx = .ok (.list vals) →
       ∃ newVal, go_up_or_down_in_data ⟨pfx ++ [.int val opt], false, m⟩ input dir
         = .ok ⟨pfx ++ [.int newVal opt], false, m⟩)
  ∧ (∀ (input : Value) (pfx : List PathMember) (cols : List String)
       (rvals : List Value) (key : String) (opt : Bool) (m : Mode) (dir : Direction),
       followCellPath input pfx = .ok (.record cols rvals) →
       (cols = [] ∨ ∃ i, position key cols = some i) →
       ∃ newKey, go_up_or_down_in_data ⟨pfx ++ [.string key opt], false, m⟩ input dir
         = .ok ⟨pfx ++ [.string newKey opt], false, m⟩)
  ∧ (∀ (st : State) (input : Value) (dir : Direction),
       st.bottom = true → go_up_or_down_in_data st input dir = .ok st)
  ∧ (∀ (st : State) (input : Value) (v : Value),
       followCellPath input st.cell_path = .ok v →
       ∃ s', go_deeper_in_data st input = .ok s')
  ∧ (∀ (input : Value) (pfx : List PathMember) (cols : List String)
       (rvals : List Value) (val : Nat) (opt : Bool) (m : Mode) (dir : Direction),
       followCellPath input pfx = .ok (.record cols rvals) →
       go_up_or_down_in_data ⟨pfx ++ [.int val opt], false, m⟩ input dir
         = .error .notStringMember)
  ∧ (∀ (input : Value) (pfx : List PathMember) (vals : List Value) (key : String)
       (opt : Bool) (m : Mode) (dir : Direction),
       followCellPath input pfx = .ok (.list vals) →
       go_up_or_down_in_data ⟨pfx ++ [.string key opt], false, m⟩ input dir
         = .error .notIntMember)
  ∧ (∀ (input : Value) (pfx : List PathMember) (cols : List String)
       (rvals : List Value) (key : String) (opt : Bool) (m : Mode) (dir : Direction),
       followCellPath input pfx = .ok (.record cols rvals) →
       cols.isEmpty = false → position key cols = none →
       go_up_or_down_in_data ⟨pfx ++ [.string key opt], false, m⟩ input dir
         = .error .positionUnwrap)
  ∧ (∀ (st : State) (input : Value) (dir : Direction) (e : ShellError),
       st.bottom = false →
       followCellPath input st.cell_path.dropLast = .error e →
       go_up_or_down_in_data st input dir = .error .followError)
  ∧ (∀ (st : State) (input : Value) (e : ShellError),
       followCellPath input st.cell_path = .error e →
       go_deeper_in_data st input = .error .followError) := by
  refine ⟨?_, ?_, ?_, ?_, ?_, ?_, ?_, ?_, ?_⟩
  · intro input pfx vals val opt m dir hf
    unfold go_up_or_down_in_data
    simp only [List.getLast?_concat, List.dropLast_concat, hf, Bool.false_eq_true,
      if_false]
    exact ⟨_, rfl⟩
  · intro input pfx cols rvals key opt m dir hf hcase
    unfold go_up_or_down_in_data
    simp only [List.getLast?_concat, List.dropLast_concat, hf, Bool.false_eq_true,
      if_false]
    rcases hcase with rfl | ⟨i, hpos⟩
    · exact ⟨"", rfl⟩
    · have hne : cols.isEmpty = false := by
        cases cols with
        | nil => simp [position] at hpos
        | cons a l => rfl
      simp only [hne, Bool.false_eq_true, if_false, hpos]
      exact ⟨_, rfl⟩
  · intro st input dir hb
    unfold go_up_or_down_in_data
    rw [if_pos hb]
  · intro st input v hf
    unfold go_deeper_in_data
    rw [hf]
    cases v <;> exact ⟨_, rfl⟩
  · intro input pfx cols rvals val opt m dir hf
    unfold go_up_or_down_in_data
    simp [List.getLast?_concat, List.dropLast_concat, hf]
  · intro input pfx vals key opt m dir hf
    unfold go_up_or_down_in_data
    simp [List.getLast?_concat, List.dropLast_concat, hf]
  · intro input pfx cols rvals key opt m dir hf hne hpos
    unfold go_up_or_down_in_data
    simp [List.getLast?_concat, List.dropLast_concat, hf, hne, hpos]
  · intro st input dir e hb hf
    unfold go_up_or_down_in_data
    rw [if_neg (by simp [hb])]
    dsimp only
    rw [hf]
  · intro st input e hf
    unfold go_deeper_in_data
    rw [hf]

/-- Witness for the amended C1: a sibling move on a leaf-focused state
(`bottom` set — the leaf boundary) returns without error, while the
absent-key inconsistency reaches the `.unwrap()` panic. -/
theorem navigator_boundary_total_and_panics_witness :
    go_up_or_down_in_data ⟨[.int 0 true], true, .normal⟩ (.list []) .down
      = .ok ⟨[.int 0 true], true, .normal⟩
  ∧ go_up_or_down_in_data ⟨[.string "b" false], false, .normal⟩
        (.record ["a"] [.int 1]) .down
      = .error .positionUnwrap :=
  ⟨navigator_boundary_total_and_panics.2.2.1 ⟨[.int 0 true], true, .normal⟩
      (.list []) .down rfl,
   navigator_boundary_total_and_panics.2.2.2.2.2.2.1 (.record ["a"] [.int 1]) []
      ["a"] [.int 1] "b" false .normal .down rfl rfl rfl⟩

/-- In Peeking mode every branch of the `else if` chain is inert (all are
guarded by Normal or Insert), so the chain returns the state unchanged. -/
lemma chainDispatch_of_peeking (cfg : Config) (input : Value) (st : State)
    (key : Key) (hm : st.mode = .peeking) :
    chainDispatch cfg input st key = .ok st := by
  unfold chainDispatch
  simp [hm]

/-- Counterexample to C6 as stated: with the key map binding key 7 to
both `peek` (class 2, mode-entry) and `peeking.all` (class 4), pressing 7
in Normal mode executes BOTH actions in the same iteration — the chain
enters Peeking and the subsequent Peeking dispatch immediately fires
peek-all, ending the session with the whole root — instead of only the
earlier class (which would merely continue in Peeking mode). -/
theorem dispatch_priority_counterexample :
    step clashCfg (.int 42) ⟨[.int 0 false], false, .normal⟩ 7 = .ret (.int 42)
  ∧ step clashCfg (.int 42) ⟨[.int 0 false], false, .normal⟩ 7
      ≠ .continue_ ⟨[.int 0 false], false, .peeking⟩ := by
  constructor
  · rfl
  · decide

/-- C6 amended: the priority order holds inside the single `else if`
cascade — session-quit is checked first and unconditionally, and a key
equal to the insert binding never falls through to later chain actions —
but the Peeking sub-actions are dispatched a second time after the chain
in the same iteration: a key bound to both `peek` and `peeking.all`
executes both, entering Peeking and immediately returning the root. -/
theorem dispatch_priority_amended :
    (∀ (cfg : Config) (input : Value) (st : State),
       step cfg input st cfg.keybindings.quit = .quit)
  ∧ (∀ (cfg : Config) (input : Value) (st : State) (k : Key),
       k ≠ cfg.keybindings.quit → k = cfg.keybindings.insert →
       st.mode = .normal →
       step cfg input st k = .continue_ { st with mode := .insert })
  ∧ (∀ (cfg : Config) (input : Value) (st : State),
       st.mode = .normal →
       cfg.keybindings.peek = cfg.keybindings.peeking.all →
       cfg.keybindings.peek ≠ cfg.keybindings.quit →
       cfg.keybindings.peek ≠ cfg.keybindings.insert →
       cfg.keybindings.peek ≠ cfg.keybindings.normal →
       cfg.keybindings.peek ≠ cfg.keybindings.navigation.down →
       cfg.keybindings.peek ≠ cfg.keybindings.navigation.up →
       cfg.keybindings.peek ≠ cfg.keybindings.navigation.right →
       cfg.keybindings.peek ≠ cfg.keybindings.navigation.left →
       cfg.keybindings.peek ≠ cfg.keybindings.peeking.quit →
       step cfg input st cfg.keybindings.peek = .ret input) := by
  refine ⟨?_, ?_, ?_⟩
  · intro cfg input st
    unfold step
    rw [if_pos rfl]
  · intro cfg input st k h1 h2 hm
    unfold step
    rw [if_neg h1]
    have hc : chainDispatch cfg input st k = .ok { st with mode := .insert } := by
      unfold chainDispatch
      rw [if_pos h2, if_pos hm]
    rw [hc]
    simp
  · intro cfg input st hm hall hq hi hn hd hu hr hl hpq
    unfold step
    rw [if_neg hq]
    have hc : chainDispatch cfg input st cfg.keybindings.peek
        = .ok { st with mode := .peeking } := by
      unfold chainDispatch
      rw [if_neg hi, if_neg hn, if_neg hd, if_neg hu, if_neg hr, if_neg hl,
        if_pos rfl, if_pos hm]
    rw [hc]
    dsimp only
    rw [if_pos rfl, if_neg hpq, if_pos hall]

/-- Witness for the amended C6: with the misconfigured `clashCfg`, quit
(key 0) quits from Peeking mode, insert (key 1) wins in Normal mode, and
the doubly-bound key 7 ends the session with the root. -/
theorem dispatch_priority_amended_witness :
    step clashCfg (.int 42) ⟨[.int 0 false], false, .peeking⟩ 0 = .quit
  ∧ step clashCfg (.int 42) ⟨[.int 0 false], false, .normal⟩ 1
      = .continue_ ⟨[.int 0 false], false, .insert⟩
  ∧ step clashCfg (.int 42) ⟨[.int 0 false], false, .normal⟩ 7 = .ret (.int 42) := by
  refine ⟨?_, ?_, ?_⟩
  · exact dispatch_priority_amended.1 clashCfg (.int 42)
      ⟨[.int 0 false], false, .peeking⟩
  · exact dispatch_priority_amended.2.1 clashCfg (.int 42)
      ⟨[.int 0 false], false, .normal⟩ 1 (by decide) rfl rfl
  · exact dispatch_priority_amended.2.2 clashCfg (.int 42)
      ⟨[.int 0 false], false, .normal⟩ rfl rfl (by decide) (by decide) (by decide)
      (by decide) (by decide) (by decide) (by decide) (by decide)

/-- C7: peek exactness.  In Peeking mode, `peek-under` ends the session
with `resolve(root, focus_path)` — the exact focused value; `peek-current`
pops the last member (regardless of `at_leaf`) and returns the resolve of
the shortened path — the parent container; `peek-all` returns the full
root unchanged regardless of focus.  Concretely, for root
`{a: [1,2,3], b: "x"}` focused at `a[1]`: peek-under gives `2`,
peek-current gives `[1, 2, 3]`, peek-all gives the whole root.  (The
inequality hypotheses say the peeking key is not shadowed by quit or by
an earlier Peeking binding.) -/
theorem peek_exactness :
    (∀ (cfg : Config) (input : Value) (st : State) (v : Value),
       st.mode = .peeking →
       cfg.keybindings.peeking.under ≠ cfg.keybindings.quit →
       cfg.keybindings.peeking.under ≠ cfg.keybindings.peeking.quit →
       cfg.keybindings.peeking.under ≠ cfg.keybindings.peeking.all →
       cfg.keybindings.peeking.under ≠ cfg.keybindings.peeking.current →
       followCellPath input st.cell_path = .ok v →
       step cfg input st cfg.keybindings.peeking.under = .ret v)
  ∧ (∀ (cfg : Config) (input : Value) (st : State) (v : Value),
       st.mode = .peeking →
       cfg.keybindings.peeking.current ≠ cfg.keybindings.quit →
       cfg.keybindings.peeking.current ≠ cfg.keybindings.peeking.quit →
       cfg.keybindings.peeking.current ≠ cfg.keybindings.peeking.all →
       followCellPath input st.cell_path.dropLast = .ok v →
       step cfg input st cfg.keybindings.peeking.current = .ret v)
  ∧ (∀ (cfg : Config) (input : Value) (st : State),
       st.mode = .peeking →
       cfg.keybindings.peeking.all ≠ cfg.keybindings.quit →
       cfg.keybindings.peeking.all ≠ cfg.keybindings.peeking.quit →
       step cfg input st cfg.keybindings.peeking.all = .ret input)
  ∧ (step demoCfg demoRoot demoSt demoCfg.keybindings.peeking.under
       = .ret (.int 2)
     ∧ step demoCfg demoRoot demoSt demoCfg.keybindings.peeking.current
         = .ret (.list [.int 1, .int 2, .int 3])
     ∧ step demoCfg demoRoot demoSt demoCfg.keybindings.peeking.all
         = .ret demoRoot) := by
  refine ⟨?_, ?_, ?_, by constructor; rfl; constructor; rfl; rfl⟩
  · intro cfg input st v hm hq hpq hpa hpc hf
    unfold step
    rw [if_neg hq, chainDispatch_of_peeking cfg input st _ hm]
    dsimp only
    rw [if_pos hm, if_neg hpq, if_neg hpa, if_neg hpc, if_pos rfl, hf]
  · intro cfg input st v hm hq hpq hpa hf
    unfold step
    rw [if_neg hq, chainDispatch_of_peeking cfg input st _ hm]
    dsimp only
    rw [if_pos hm, if_neg hpq, if_neg hpa, if_pos rfl, hf]
  · intro cfg input st hm hq hpq
    unfold step
    rw [if_neg hq, chainDispatch_of_peeking cfg input st _ hm]
    dsimp only
    rw [if_pos hm, if_neg hpq, if_pos rfl]

/-- Witness for C7: the general parts applied at the demonstration
configuration and the `{a: [1,2,3], b: "x"}` state. -/
theorem peek_exactness_witness :
    step demoCfg demoRoot demoSt 11 = .ret (.int 2)
  ∧ step demoCfg demoRoot demoSt 10 = .ret (.list [.int 1, .int 2, .int 3])
  ∧ step demoCfg demoRoot demoSt 9 = .ret demoRoot := by
  refine ⟨?_, ?_, ?_⟩
  · exact peek_exactness.1 demoCfg demoRoot demoSt (.int 2) rfl (by decide)
      (by decide) (by decide) (by decide) rfl
  · exact peek_exactness.2.1 demoCfg demoRoot demoSt (.list [.int 1, .int 2, .int 3])
      rfl (by decide) (by decide) (by decide) rfl
  · exact peek_exactness.2.2.1 demoCfg demoRoot demoSt rfl (by decide) (by decide)

/-- Counterexample to C5 as stated: resolving the placeholder path
`[Index{0, empty_at_creation = true}]` against the empty-list root does
stop at the flagged member, but it yields the `Nothing` value — not "the
container reached so far" (which here is the root `[]` itself, as the
claim requires). -/
theorem resolve_placeholder_counterexample :
    followCellPath (.list []) [.int 0 true] = .ok .nothing
  ∧ Value.nothing ≠ Value.list [] := by
  constructor
  · rfl
  · decide

/-- C5 amended: `resolve` walks the path from the root; at a member
whose lookup fails and whose `empty_at_creation` flag is true it stops
and yields `Nothing` (so the placeholder focus behaves as a leaf), not
the parent container; a member whose lookup succeeds indexes the List by
position or keys the Record by name, whatever its flag. -/
theorem resolve_walk_amended :
    (∀ (vals : List Value) (i : Nat) (rest : List PathMember),
       vals.get? i = none →
       followCellPath (.list vals) (.int i true :: rest) = .ok .nothing)
  ∧ (∀ (cols : List String) (rvals : List Value) (key : String)
       (rest : List PathMember),
       recordGet key cols rvals = none →
       followCellPath (.record cols rvals) (.string key true :: rest) = .ok .nothing)
  ∧ (∀ (vals : List Value) (i : Nat) (b : Bool) (rest : List PathMember) (x : Value),
       vals.get? i = some x →
       followCellPath (.list vals) (.int i b :: rest) = followCellPath x rest)
  ∧ (∀ (cols : List String) (rvals : List Value) (key : String) (b : Bool)
       (rest : List PathMember) (x : Value),
       recordGet key cols rvals = some x →
       followCellPath (.record cols rvals) (.string key b :: rest)
         = followCellPath x rest) := by
  refine ⟨?_, ?_, ?_, ?_⟩
  · intro vals i rest h
    simp only [List.get?_eq_getElem?] at h
    simp [followCellPath, h]
  · intro cols rvals key rest h
    simp [followCellPath, h]
  · intro vals i b rest x h
    simp only [List.get?_eq_getElem?] at h
    simp [followCellPath, h]
  · intro cols rvals key b rest x h
    simp [followCellPath, h]

/-- Witness for the amended C5: the placeholder stop on the empty list
and a successful index step on `[7]`. -/
theorem resolve_walk_amended_witness :
    followCellPath (.list []) [.int 0 true] = .ok .nothing
  ∧ followCellPath (.list [.int 7]) [.int 0 false] = followCellPath (.int 7) [] :=
  ⟨resolve_walk_amended.1 [] 0 [] rfl,
   resolve_walk_amended.2.2.1 [.int 7] 0 false [] (.int 7) rfl⟩

end NuExplore
